import Mathlib

/-!
# rxnew/bst : a binary search tree over shared / weak node pointers

Embedding of `src/bst.hpp` and `src/bst_impl.hpp`.

The C++ tree is a graph of heap nodes: `left` and `right` are owning
`shared_ptr`s, `parent` is a `weak_ptr`.  `remove` mutates nodes in place
and reads the `parent` back reference, so the node graph is modelled as an
explicit store:

* a node pointer is `Option Nat` (`none` is the null pointer, `some i` the
  `i`-th node ever allocated);
* the store is the list of all nodes allocated so far, `new Node` appends;
* a node is alive while some `shared_ptr` owns it, that is while it can be
  reached from `root` through `left` / `right`; `weak_ptr::lock` yields the
  node when it is alive and null otherwise;
* `size_t` is `Nat` modulo `2 ^ 64`;
* the recursive helpers take the recursion depth as fuel and return `none`
  when it runs out; the public operations supply `store length + 1`, which
  is more than any chain of distinct nodes can use.

The element type `T` comes with `==` and `>`; it is a `LinearOrder`.
-/

namespace bst

/-- Width of `size_t`. -/
def SIZE_BITS : Nat := 64

/-- Number of values of `size_t`. -/
def SIZE_MOD : Nat := 2 ^ SIZE_BITS

/-- `Tree<T>::Impl::Node`: value, owning `left` / `right`, weak `parent`. -/
structure Node (T : Type) where
  val : T
  left : Option Nat
  right : Option Nat
  parent : Option Nat
deriving DecidableEq, Repr

/-- `Tree<T>::Impl` together with the node store its pointers refer to. -/
structure Impl (T : Type) where
  heap : List (Node T)
  root : Option Nat
  size : Nat
deriving DecidableEq, Repr

/-- `Impl::Impl()`: `root()` and `size()` value-initialised. -/
def Impl.new (T : Type) : Impl T := ⟨[], none, 0⟩

section Definitions
variable {T : Type} [LinearOrder T]

/-- `Impl::find`:
`if(!node || node->val == val) return node;`
`return find(val, node->val > val ? node->left : node->right);` -/
def Impl.find (h : List (Node T)) (val : T) : Nat → Option Nat → Option (Option Nat)
  | 0, _ => none
  | _ + 1, none => some none
  | fuel + 1, some i =>
    match h[i]? with
    | none => none
    | some n =>
      if n.val = val then some (some i)
      else Impl.find h val fuel (if n.val > val then n.left else n.right)

/-- `Impl::findMax`:
`return node && node->right ? findMax(node->right) : node;` -/
def Impl.findMax (h : List (Node T)) : Nat → Option Nat → Option (Option Nat)
  | 0, _ => none
  | _ + 1, none => some none
  | fuel + 1, some i =>
    match h[i]? with
    | none => none
    | some n =>
      match n.right with
      | some r => Impl.findMax h fuel (some r)
      | none => some (some i)

/-- `Impl::getChild`: `node->val > val ? node->left : node->right`
(read as a value). -/
def Impl.getChild (n : Node T) (val : T) : Option Nat :=
  if n.val > val then n.left else n.right

/-- Assignment through the reference returned by `Impl::getChild`. -/
def Impl.setChild (n : Node T) (val : T) (p : Option Nat) : Node T :=
  if n.val > val then { n with left := p } else { n with right := p }

/-- `Impl::getInsertPos`:
`if(node->val == val) return NodePtr();`
`auto& next = getChild(node, val);`
`return next ? getInsertPos(val, next) : node;` -/
def Impl.getInsertPos (h : List (Node T)) (val : T) : Nat → Nat → Option (Option Nat)
  | 0, _ => none
  | fuel + 1, i =>
    match h[i]? with
    | none => none
    | some n =>
      if n.val = val then some none
      else
        match Impl.getChild n val with
        | some c => Impl.getInsertPos h val fuel c
        | none => some (some i)

/-- `size++` on a `size_t`. -/
def sizeInc (n : Nat) : Nat := (n + 1) % SIZE_MOD

/-- `size--` on a `size_t`. -/
def sizeDec (n : Nat) : Nat := (n + SIZE_MOD - 1) % SIZE_MOD

/-- `Tree::insert(U&& val)`:
`if(!impl->root) impl->insert(val, impl->root);`
`else if(auto node = impl->getInsertPos(val, impl->root))`
`  impl->insert(val, impl->getChild(node, val), node);`
where `Impl::insert(val, slot, parent)` is
`slot.reset(new Node(val, parent)); size++;`. -/
def Tree.insert (s : Impl T) (val : T) : Option (Impl T) :=
  match s.root with
  | none =>
    some ⟨s.heap ++ [⟨val, none, none, none⟩], some s.heap.length, sizeInc s.size⟩
  | some r =>
    match Impl.getInsertPos s.heap val (s.heap.length + 1) r with
    | none => none
    | some none => some s
    | some (some p) =>
      match s.heap[p]? with
      | none => none
      | some n =>
        some ⟨(s.heap.set p (Impl.setChild n val (some s.heap.length)))
                ++ [⟨val, none, none, some p⟩],
              s.root, sizeInc s.size⟩

/-- `Tree::insert(std::initializer_list<T>)` and `Tree::insert(const Container<T>&)`:
`for(const auto& val : list) insert(val);`. -/
def Tree.insertList (s : Impl T) : List T → Option (Impl T)
  | [] => some s
  | v :: vs =>
    match Tree.insert s v with
    | none => none
    | some s1 => Tree.insertList s1 vs

/-- `Tree::Tree(std::initializer_list<T>)`: `impl(new Impl())`, then `insert(list)`. -/
def Tree.ofList (xs : List T) : Option (Impl T) :=
  Tree.insertList (Impl.new T) xs

/-- `Tree::size`. -/
def Tree.size (s : Impl T) : Nat := s.size

/-- `Tree::empty`: `return !impl->size;`. -/
def Tree.empty (s : Impl T) : Bool := s.size == 0

/-- `Tree::clear`: `impl.reset(new Impl())`; the old graph is released. -/
def Tree.clear (s : Impl T) : Impl T := ⟨s.heap, none, 0⟩

/-- `Tree::exists`: `static_cast<bool>(impl->find(val, impl->root))`. -/
def Tree.exists (s : Impl T) (val : T) : Option Bool :=
  (Impl.find s.heap val (s.heap.length + 1) s.root).map Option.isSome

/-- Nodes owned through `left` / `right` links from `p`, in pre-order,
followed to depth `fuel`. -/
def reach (h : List (Node T)) : Nat → Option Nat → List Nat
  | 0, _ => []
  | _ + 1, none => []
  | fuel + 1, some i =>
    match h[i]? with
    | none => []
    | some n => i :: (reach h fuel n.left ++ reach h fuel n.right)

/-- `weak_ptr::lock`: the node when a `shared_ptr` still owns it, else null. -/
def Impl.lock (s : Impl T) (w : Option Nat) : Option Nat :=
  match w with
  | none => none
  | some j => if j ∈ reach s.heap (s.heap.length + 1) s.root then some j else none

/-- `Impl::shiftUp`:
`auto child = node->left ? node->left : node->right;`
`if(child) child->parent = node->parent;`
`if(auto parent = node->parent.lock()) {`
`  parent->val > node->val ? parent->left : parent->right = child;`
`}`
In C++ the last statement parses as `c ? parent->left : (parent->right = child)`:
the assignment belongs to the third operand only. -/
def Impl.shiftUp (s : Impl T) (node : Nat) : Option (Impl T) :=
  match s.heap[node]? with
  | none => none
  | some n =>
    let child := if n.left.isSome then n.left else n.right
    let h1 : Option (List (Node T)) :=
      match child with
      | none => some s.heap
      | some c =>
        match s.heap[c]? with
        | none => none
        | some cn => some (s.heap.set c { cn with parent := n.parent })
    match h1 with
    | none => none
    | some h1 =>
      match Impl.lock s n.parent with
      | none => some { s with heap := h1 }
      | some p =>
        match h1[p]?, h1[node]? with
        | some pn, some nn =>
          if pn.val > nn.val then some { s with heap := h1 }
          else some { s with heap := h1.set p { pn with right := child } }
        | _, _ => none

/-- `Impl::replace`:
`auto max_node = findMax(node->left);`
`node->val = max_node->val;`
`node = max_node;`
Returns the updated store and the retargeted `node`. -/
def Impl.replace (s : Impl T) (node : Nat) : Option (Impl T × Nat) :=
  match s.heap[node]? with
  | none => none
  | some n =>
    match Impl.findMax s.heap (s.heap.length + 1) n.left with
    | some (some m) =>
      match s.heap[m]? with
      | none => none
      | some mn => some ({ s with heap := s.heap.set node { n with val := mn.val } }, m)
    | _ => none

/-- `Tree::remove`:
`auto node = impl->find(val, impl->root);`
`if(!node) return;`
`if(node->left && node->right) impl->replace(node);`
`impl->shiftUp(node);`
`impl->size--;` -/
def Tree.remove (s : Impl T) (val : T) : Option (Impl T) :=
  match Impl.find s.heap val (s.heap.length + 1) s.root with
  | none => none
  | some none => some s
  | some (some node) =>
    match s.heap[node]? with
    | none => none
    | some n =>
      let r : Option (Impl T × Nat) :=
        if n.left.isSome && n.right.isSome then Impl.replace s node else some (s, node)
      match r with
      | none => none
      | some (s1, node1) =>
        match Impl.shiftUp s1 node1 with
        | none => none
        | some s2 => some { s2 with size := sizeDec s2.size }

/-- In-order traversal (left subtree, node, right subtree) of the nodes
reached from `p`; `Impl::print` walks the same nodes in the reverse order. -/
def Impl.inorder (h : List (Node T)) : Nat → Option Nat → Option (List T)
  | 0, _ => none
  | _ + 1, none => some []
  | fuel + 1, some i =>
    match h[i]? with
    | none => none
    | some n =>
      match Impl.inorder h fuel n.left, Impl.inorder h fuel n.right with
      | some l, some r => some (l ++ n.val :: r)
      | _, _ => none

/-- In-order traversal of a whole tree. -/
def Tree.inorder (s : Impl T) : Option (List T) :=
  Impl.inorder s.heap (s.heap.length + 1) s.root

/-- The distinct nodes that can be reached from the root. -/
def Tree.nodes (s : Impl T) : List Nat :=
  (reach s.heap (s.heap.length + 1) s.root).dedup

/-- `Impl::equals`:
`if(lhs->val != rhs->val) return false;`
`if(static_cast<bool>(lhs->left) != static_cast<bool>(rhs->left)) return false;`
`if(lhs->left && !equals(lhs->left, rhs->left)) return false;`
`if(lhs->right && !equals(lhs->right, rhs->right)) return false;`
`return true;`
`lhs` points into the store `hl`, `rhs` into `hr`.  Both pointers are
dereferenced unguarded: on a null pointer there is no result. -/
def Impl.equals (hl hr : List (Node T)) : Nat → Option Nat → Option Nat → Option Bool
  | 0, _, _ => none
  | _ + 1, none, _ => none
  | _ + 1, some _, none => none
  | fuel + 1, some i, some j =>
    match hl[i]?, hr[j]? with
    | some ln, some rn =>
      if ln.val ≠ rn.val then some false
      else if ln.left.isSome ≠ rn.left.isSome then some false
      else
        match (if ln.left.isSome then Impl.equals hl hr fuel ln.left rn.left else some true) with
        | none => none
        | some false => some false
        | some true =>
          if ln.right.isSome then Impl.equals hl hr fuel ln.right rn.right else some true
    | _, _ => none

/-- `Tree::operator==`:
`if(size() != other.size()) return false;`
`return impl->equals(impl->root, other.impl->root);` -/
def Tree.operatorEq (a b : Impl T) : Option Bool :=
  if Tree.size a ≠ Tree.size b then some false
  else Impl.equals a.heap b.heap (a.heap.length + 1) a.root b.root

/-- `Tree::operator!=`: `return !(*this == other);`. -/
def Tree.operatorNe (a b : Impl T) : Option Bool :=
  (Tree.operatorEq a b).map not

/-- The two statements `node->left = c; node->left->parent = node;` of
`Node::clone` (`toLeft`), or the same two on `right`, for the new node `k`
and its cloned child `c`. -/
def Node.link (toLeft : Bool) (hd : List (Node T)) (k c : Nat) : Option (List (Node T)) :=
  match hd[k]? with
  | none => none
  | some nk =>
    let nk1 : Node T := if toLeft then { nk with left := some c } else { nk with right := some c }
    match (hd.set k nk1)[c]? with
    | none => none
    | some nc => some ((hd.set k nk1).set c { nc with parent := some k })

/-- One block `if(left) { node->left = left->clone(); node->left->parent = node; }`
of `Node::clone` (or the block for `right`): `child` is the source child,
`rec` clones a source node into a store, `k` is the new node. -/
def Node.cloneChild (rec : List (Node T) → Nat → Option (List (Node T) × Nat))
    (toLeft : Bool) (hd : List (Node T)) (k : Nat) (child : Option Nat) :
    Option (List (Node T)) :=
  match child with
  | none => some hd
  | some c =>
    match rec hd c with
    | none => none
    | some (hd1, c1) => Node.link toLeft hd1 k c1

/-- `Node::clone`:
`NodePtrT node(new Node(val));`
`if(left) { node->left = left->clone(); node->left->parent = node; }`
`if(right) { node->right = right->clone(); node->right->parent = node; }`
`return std::move(node);`
The node `i` of the store `hs` is cloned into the store `hd`; the result is
the grown store and the new node. -/
def Node.clone (hs : List (Node T)) : Nat → List (Node T) → Nat → Option (List (Node T) × Nat)
  | 0, _, _ => none
  | fuel + 1, hd, i =>
    match hs[i]? with
    | none => none
    | some n =>
      match Node.cloneChild (Node.clone hs fuel) true
          (hd ++ [⟨n.val, none, none, none⟩]) hd.length n.left with
      | none => none
      | some hd2 =>
        match Node.cloneChild (Node.clone hs fuel) false hd2 hd.length n.right with
        | none => none
        | some hd4 => some (hd4, hd.length)

/-- `Tree::operator=(const Tree& other)`:
`if(other.impl->root) impl->root = other.impl->root->clone();`
`impl->size = other.impl->size;` -/
def Tree.operatorAssign (dst src : Impl T) : Option (Impl T) :=
  match src.root with
  | none => some { dst with size := src.size }
  | some r =>
    match Node.clone src.heap (src.heap.length + 1) dst.heap r with
    | none => none
    | some (hd, k) => some ⟨hd, some k, src.size⟩

/-- `Tree::Tree(const Tree& other)`: `impl(new Impl())`, then `*this = other`. -/
def Tree.copy (src : Impl T) : Option (Impl T) :=
  Tree.operatorAssign (Impl.new T) src

/-! ### Abstraction of the node graph -/

/-- The tree-shaped graph below a pointer: at each position the identity of
the node and the value it holds. -/
inductive Shape (T : Type) where
  | nil : Shape T
  | node (id : Nat) (l : Shape T) (v : T) (r : Shape T) : Shape T

/-- Node identities of a shape, in-order. -/
def Shape.ids : Shape T → List Nat
  | .nil => []
  | .node i l _ r => l.ids ++ i :: r.ids

/-- Values of a shape, in-order. -/
def Shape.toList : Shape T → List T
  | .nil => []
  | .node _ l v r => l.toList ++ v :: r.toList

/-- Number of nodes on the longest downward path. -/
def Shape.height : Shape T → Nat
  | .nil => 0
  | .node _ l _ r => max l.height r.height + 1

/-- The store `h` holds the shape `t` below the pointer `p`. -/
def Rep (h : List (Node T)) : Option Nat → Shape T → Prop
  | p, .nil => p = none
  | p, .node i l v r =>
    p = some i ∧ ∃ n, h[i]? = some n ∧ n.val = v ∧ Rep h n.left l ∧ Rep h n.right r

/-- Insertion seen on shapes: the node `k` holding `v` is hung in the empty
slot that the descent of `getInsertPos` ends at. -/
def Shape.attach (k : Nat) (v : T) : Shape T → Shape T
  | .nil => .node k .nil v .nil
  | .node i l x r =>
    if x = v then .node i l x r
    else if x > v then .node i (l.attach k v) x r
    else .node i l x (r.attach k v)

/-- Node identities of a shape, in pre-order. -/
def Shape.pre : Shape T → List Nat
  | .nil => []
  | .node i l _ r => i :: (l.pre ++ r.pre)

/-- Invariant of the states built by `insert`: the store holds a strictly
ordered shape below `root`, and `size` counts its nodes (as a `size_t`). -/
def Built (s : Impl T) (t : Shape T) : Prop :=
  Rep s.heap s.root t ∧ t.toList.Sorted (· < ·) ∧ s.size = t.toList.length % SIZE_MOD

/-- A binary tree of values: shape and value at every position, without
node identities. -/
inductive Skel (T : Type) where
  | nil : Skel T
  | node (l : Skel T) (v : T) (r : Skel T) : Skel T
deriving DecidableEq, Repr

/-- Shape and values below the pointer `p`, read off the store. -/
def Impl.skel (h : List (Node T)) : Nat → Option Nat → Option (Skel T)
  | 0, _ => none
  | _ + 1, none => some .nil
  | fuel + 1, some i =>
    match h[i]? with
    | none => none
    | some n =>
      match Impl.skel h fuel n.left, Impl.skel h fuel n.right with
      | some l, some r => some (.node l n.val r)
      | _, _ => none

/-- Shape and values of a whole tree. -/
def Tree.skel (s : Impl T) : Option (Skel T) :=
  Impl.skel s.heap (s.heap.length + 1) s.root

/-- A shape without its node identities. -/
def Shape.skel : Shape T → Skel T
  | .nil => .nil
  | .node _ l v r => .node l.skel v r.skel

/-- The parent reference of the child `c` (if any) designates `i`. -/
def childParentOk (h : List (Node T)) (i : Nat) (c : Option Nat) : Bool :=
  match c with
  | none => true
  | some j =>
    match h[j]? with
    | none => false
    | some cn => cn.parent == some i

/-- Parent back-reference invariant: the root has an empty parent reference
and the parent reference of every child of a reachable node designates that
node. -/
def Tree.parentsOk (s : Impl T) : Bool :=
  (match s.root with
    | none => true
    | some r =>
      match s.heap[r]? with
      | none => false
      | some n => n.parent.isNone) &&
  (Tree.nodes s).all (fun i =>
    match s.heap[i]? with
    | none => false
    | some n => childParentOk s.heap i n.left && childParentOk s.heap i n.right)

/-- The node `i` has the same value and the same children in both stores
(its parent reference may differ). -/
def SameLinks (h h1 : List (Node T)) (i : Nat) : Prop :=
  ∀ n, h[i]? = some n → ∃ n1, h1[i]? = some n1 ∧ n1.val = n.val ∧ n1.left = n.left ∧
    n1.right = n.right

/-- What cloning the source shape `t` from the node `c` into the store `hd`
achieves: the clone sits at the first fresh address, has the shape and
values of `t`, and the old part of `hd` is untouched. -/
def Cloned (rec : List (Node T) → Nat → Option (List (Node T) × Nat)) (t : Shape T)
    (c : Nat) : Prop :=
  ∀ hd : List (Node T), ∃ hd1 t1, rec hd c = some (hd1, hd.length) ∧
    Rep hd1 (some hd.length) t1 ∧ t1.skel = t.skel ∧
    hd.length + t1.height ≤ hd1.length ∧
    (∀ j, j < hd.length → hd1[j]? = hd[j]?) ∧ (∀ j ∈ t1.ids, hd.length ≤ j)

end Definitions

/-! ### The store: framing and traversal -/

section Frame
variable {T : Type}

theorem Rep.lt_length {h : List (Node T)} {t : Shape T} :
    ∀ {p : Option Nat}, Rep h p t → ∀ i ∈ t.ids, i < h.length := by
  induction t with
  | nil => intro p _ i hi; simp [Shape.ids] at hi
  | node j l v r ihl ihr =>
    intro p hr i hi
    obtain ⟨_, n, hn, _, hl, hrr⟩ := hr
    simp only [Shape.ids, List.mem_append, List.mem_cons] at hi
    rcases hi with hi | rfl | hi
    · exact ihl hl i hi
    · exact (List.getElem?_eq_some.mp hn).1
    · exact ihr hrr i hi

theorem Rep.append {h : List (Node T)} (x : List (Node T)) {t : Shape T} :
    ∀ {p : Option Nat}, Rep h p t → Rep (h ++ x) p t := by
  induction t with
  | nil => intro p hp; exact hp
  | node j l v r ihl ihr =>
    intro p hr
    obtain ⟨hp, n, hn, hv, hl, hrr⟩ := hr
    refine ⟨hp, n, ?_, hv, ihl hl, ihr hrr⟩
    rw [List.getElem?_append_left (List.getElem?_eq_some.mp hn).1]
    exact hn

theorem Rep.set_frame {h : List (Node T)} {j : Nat} (x : Node T) {t : Shape T} :
    ∀ {p : Option Nat}, Rep h p t → j ∉ t.ids → Rep (h.set j x) p t := by
  induction t with
  | nil => intro p hp _; exact hp
  | node i l v r ihl ihr =>
    intro p hr hj
    obtain ⟨hp, n, hn, hv, hl, hrr⟩ := hr
    simp only [Shape.ids, List.mem_append, List.mem_cons, not_or] at hj
    refine ⟨hp, n, ?_, hv, ihl hl hj.1, ihr hrr hj.2.2⟩
    rw [List.getElem?_set_ne hj.2.1]
    exact hn

theorem Rep.toList_eq {h : List (Node T)} {t : Shape T} :
    ∀ {p : Option Nat}, Rep h p t →
      t.toList.map some = t.ids.map (fun i => (h[i]?).map Node.val) := by
  induction t with
  | nil => intro p _; rfl
  | node i l v r ihl ihr =>
    intro p hr
    obtain ⟨_, n, hn, hv, hl, hrr⟩ := hr
    simp only [Shape.toList, Shape.ids, List.map_append, List.map_cons, ihl hl, ihr hrr, hn,
      Option.map_some', hv]

theorem Shape.height_le_length (t : Shape T) : t.height ≤ t.ids.length := by
  induction t with
  | nil => simp [Shape.height]
  | node i l v r ihl ihr =>
    simp only [Shape.height, Shape.ids, List.length_append, List.length_cons]
    omega

theorem nodup_length_le {l : List Nat} {n : Nat} (hn : l.Nodup) (hb : ∀ i ∈ l, i < n) :
    l.length ≤ n := by
  have h1 : l.toFinset ⊆ Finset.range n := by
    intro i hi
    rw [List.mem_toFinset] at hi
    exact Finset.mem_range.mpr (hb i hi)
  have h2 := Finset.card_le_card h1
  rwa [List.toFinset_card_of_nodup hn, Finset.card_range] at h2

theorem inorder_rep {h : List (Node T)} {t : Shape T} :
    ∀ {p : Option Nat} {fuel : Nat}, Rep h p t → t.height < fuel →
      Impl.inorder h fuel p = some t.toList := by
  induction t with
  | nil =>
    intro p fuel hp hf
    cases hp
    rcases fuel with _ | f
    · exact absurd hf (Nat.not_lt_zero _)
    rfl
  | node i l x r ihl ihr =>
    intro p fuel hrep hf
    obtain ⟨hp, n, hn, hv, hl, hrr⟩ := hrep
    subst hp
    rcases fuel with _ | f
    · exact absurd hf (Nat.not_lt_zero _)
    simp only [Shape.height] at hf
    simp only [Impl.inorder, hn, @ihl _ f hl (by omega), @ihr _ f hrr (by omega),
      Shape.toList, hv]

theorem rep_of_inorder {h : List (Node T)} :
    ∀ {fuel : Nat} {p : Option Nat} {xs : List T}, Impl.inorder h fuel p = some xs →
      ∃ t : Shape T, Rep h p t ∧ t.toList = xs := by
  intro fuel
  induction fuel with
  | zero => intro p xs hx; simp [Impl.inorder] at hx
  | succ f ih =>
    intro p xs hx
    cases p with
    | none =>
      simp only [Impl.inorder, Option.some.injEq] at hx
      exact ⟨.nil, rfl, hx⟩
    | some i =>
      simp only [Impl.inorder] at hx
      cases hn : h[i]? with
      | none => simp [hn] at hx
      | some n =>
        simp only [hn] at hx
        cases hl : Impl.inorder h f n.left with
        | none => simp [hl] at hx
        | some ll =>
          cases hr : Impl.inorder h f n.right with
          | none => simp [hl, hr] at hx
          | some rr =>
            simp only [hl, hr, Option.some.injEq] at hx
            obtain ⟨tl, htl, rfl⟩ := ih hl
            obtain ⟨tr, htr, rfl⟩ := ih hr
            exact ⟨.node i tl n.val tr, ⟨rfl, n, hn, rfl, htl, htr⟩, hx⟩

theorem Rep.eq_nil {h : List (Node T)} {t : Shape T} (hr : Rep h none t) : t = .nil := by
  cases t with
  | nil => rfl
  | node i l x r => exact absurd hr.1 (by simp)

theorem getElem?_set_append_self {h : List (Node T)} {p : Nat} {n : Node T} (x : Node T)
    (y : List (Node T)) (hp : h[p]? = some n) : (h.set p x ++ y)[p]? = some x := by
  have hlt : p < h.length := (List.getElem?_eq_some.mp hp).1
  rw [List.getElem?_append_left (by simpa using hlt)]
  exact List.getElem?_set_self hlt

theorem getElem?_set_append_ne {h : List (Node T)} {p i : Nat} {n : Node T} (x : Node T)
    (y : List (Node T)) (hi : h[i]? = some n) (hne : p ≠ i) : (h.set p x ++ y)[i]? = some n := by
  have hlt : i < h.length := (List.getElem?_eq_some.mp hi).1
  rw [List.getElem?_append_left (by simpa using hlt), List.getElem?_set_ne hne]
  exact hi

theorem getElem?_set_append_length {h : List (Node T)} (p : Nat) (x y : Node T) :
    (h.set p x ++ [y])[h.length]? = some y := by
  have := List.getElem?_concat_length (h.set p x) y
  rwa [List.length_set] at this

end Frame

/-! ### Search and insertion on ordered shapes -/

section Order
variable {T : Type} [LinearOrder T]

theorem Rep.nodup_ids {h : List (Node T)} {t : Shape T} {p : Option Nat}
    (hr : Rep h p t) (hs : t.toList.Sorted (· < ·)) : t.ids.Nodup := by
  have h1 : (t.toList.map some).Nodup :=
    (List.Sorted.nodup hs).map (Option.some_injective T)
  rw [hr.toList_eq] at h1
  exact List.Nodup.of_map _ h1

theorem Rep.height_lt {h : List (Node T)} {t : Shape T} {p : Option Nat}
    (hr : Rep h p t) (hs : t.toList.Sorted (· < ·)) : t.height < h.length + 1 := by
  have := t.height_le_length
  have := nodup_length_le (hr.nodup_ids hs) hr.lt_length
  omega

theorem sorted_mid_iff {l r : List T} {v : T} :
    (l ++ v :: r).Sorted (· < ·) ↔
      l.Sorted (· < ·) ∧ r.Sorted (· < ·) ∧ (∀ a ∈ l, a < v) ∧ (∀ b ∈ r, v < b) := by
  unfold List.Sorted
  rw [List.pairwise_append, List.pairwise_cons]
  constructor
  · rintro ⟨hl, ⟨hv, hr⟩, hlr⟩
    exact ⟨hl, hr, fun a ha => hlr a ha v (List.mem_cons_self _ _), hv⟩
  · rintro ⟨hl, hr, hlv, hvr⟩
    refine ⟨hl, ⟨hvr, hr⟩, ?_⟩
    intro a ha b hb
    rcases List.mem_cons.mp hb with rfl | hb
    · exact hlv a ha
    · exact lt_trans (hlv a ha) (hvr b hb)

theorem find_rep {h : List (Node T)} (v : T) {t : Shape T} :
    ∀ {p : Option Nat} {fuel : Nat}, Rep h p t → t.toList.Sorted (· < ·) → t.height < fuel →
      ∃ r, Impl.find h v fuel p = some r ∧ (r.isSome = true ↔ v ∈ t.toList) ∧
        ∀ i, r = some i → i ∈ t.ids ∧ ∃ n, h[i]? = some n ∧ n.val = v := by
  induction t with
  | nil =>
    intro p fuel hp _ hf
    cases hp
    rcases fuel with _ | f
    · exact absurd hf (Nat.not_lt_zero _)
    exact ⟨none, rfl, by simp [Shape.toList], by simp⟩
  | node i l x r ihl ihr =>
    intro p fuel hrep hs hf
    obtain ⟨hp, n, hn, hv, hl, hrr⟩ := hrep
    subst hp
    rcases fuel with _ | f
    · exact absurd hf (Nat.not_lt_zero _)
    simp only [Shape.height] at hf
    simp only [Shape.toList] at hs
    obtain ⟨hsl, hsr, hlx, hxr⟩ := sorted_mid_iff.mp hs
    simp only [Impl.find, hn, hv]
    by_cases hxv : x = v
    · subst hxv
      refine ⟨some i, by simp, by simp [Shape.toList], ?_⟩
      intro j hj
      cases hj
      exact ⟨by simp [Shape.ids], n, hn, hv⟩
    · simp only [hxv, if_false]
      by_cases hgt : x > v
      · simp only [hgt, if_true]
        obtain ⟨res, h1, h2, h3⟩ := @ihl _ f hl hsl (by omega)
        refine ⟨res, h1, ?_, ?_⟩
        · rw [h2]
          simp only [Shape.toList, List.mem_append, List.mem_cons]
          constructor
          · exact Or.inl
          · rintro (hm | hm | hm)
            · exact hm
            · exact absurd hm.symm hxv
            · exact absurd (hxr v hm) (not_lt_of_gt hgt)
        · intro j hj
          obtain ⟨h4, h5⟩ := h3 j hj
          exact ⟨by simp [Shape.ids, h4], h5⟩
      · simp only [hgt, if_false]
        obtain ⟨res, h1, h2, h3⟩ := @ihr _ f hrr hsr (by omega)
        refine ⟨res, h1, ?_, ?_⟩
        · rw [h2]
          simp only [Shape.toList, List.mem_append, List.mem_cons]
          constructor
          · exact fun hm => Or.inr (Or.inr hm)
          · rintro (hm | hm | hm)
            · exact absurd (hlx v hm) hgt
            · exact absurd hm.symm hxv
            · exact hm
        · intro j hj
          obtain ⟨h4, h5⟩ := h3 j hj
          exact ⟨by simp [Shape.ids, h4], h5⟩

theorem Shape.attach_perm (k : Nat) {v : T} {t : Shape T} (hv : v ∉ t.toList) :
    (t.attach k v).toList.Perm (v :: t.toList) := by
  induction t with
  | nil => simp [Shape.attach, Shape.toList]
  | node i l x r ihl ihr =>
    simp only [Shape.toList, List.mem_append, List.mem_cons, not_or] at hv
    obtain ⟨hvl, hvx, hvr⟩ := hv
    have hxv : ¬ x = v := fun e => hvx e.symm
    simp only [Shape.attach, hxv, if_false]
    by_cases hgt : x > v
    · simp only [hgt, if_true, Shape.toList]
      exact (ihl hvl).append_right _
    · simp only [hgt, if_false, Shape.toList]
      have h1 : (l.toList ++ x :: (r.attach k v).toList).Perm (l.toList ++ x :: v :: r.toList) :=
        List.Perm.append_left _ ((ihr hvr).cons x)
      refine h1.trans ?_
      have h2 : (l.toList ++ x :: v :: r.toList) = (l.toList ++ [x]) ++ v :: r.toList := by simp
      have h3 : (l.toList ++ x :: r.toList) = (l.toList ++ [x]) ++ r.toList := by simp
      rw [h2, h3]
      exact List.perm_middle

theorem Shape.attach_sorted (k : Nat) {v : T} {t : Shape T} (hv : v ∉ t.toList)
    (hs : t.toList.Sorted (· < ·)) : (t.attach k v).toList.Sorted (· < ·) := by
  induction t with
  | nil => simp [Shape.attach, Shape.toList]
  | node i l x r ihl ihr =>
    simp only [Shape.toList, List.mem_append, List.mem_cons, not_or] at hv
    obtain ⟨hvl, hvx, hvr⟩ := hv
    have hxv : ¬ x = v := fun e => hvx e.symm
    simp only [Shape.toList] at hs
    obtain ⟨hsl, hsr, hlx, hxr⟩ := sorted_mid_iff.mp hs
    simp only [Shape.attach, hxv, if_false]
    by_cases hgt : x > v
    · simp only [hgt, if_true, Shape.toList]
      refine sorted_mid_iff.mpr ⟨ihl hvl hsl, hsr, ?_, hxr⟩
      intro a ha
      rcases List.mem_cons.mp ((Shape.attach_perm k hvl).mem_iff.mp ha) with rfl | ha
      · exact hgt
      · exact hlx a ha
    · simp only [hgt, if_false, Shape.toList]
      refine sorted_mid_iff.mpr ⟨hsl, ihr hvr hsr, hlx, ?_⟩
      intro b hb
      rcases List.mem_cons.mp ((Shape.attach_perm k hvr).mem_iff.mp hb) with rfl | hb
      · exact lt_of_le_of_ne (not_lt.mp hgt) hxv
      · exact hxr b hb

theorem getInsertPos_mem {h : List (Node T)} {v : T} {t : Shape T} :
    ∀ {i fuel : Nat}, Rep h (some i) t → t.toList.Sorted (· < ·) → t.height ≤ fuel →
      v ∈ t.toList → Impl.getInsertPos h v fuel i = some none := by
  induction t with
  | nil => intro i fuel hr; exact absurd hr (by simp [Rep])
  | node j l x r ihl ihr =>
    intro i fuel hrep hs hf hv
    obtain ⟨hp, n, hn, hx, hl, hrr⟩ := hrep
    cases hp
    simp only [Shape.height] at hf
    rcases fuel with _ | f
    · omega
    simp only [Shape.toList] at hs hv
    obtain ⟨hsl, hsr, hlx, hxr⟩ := sorted_mid_iff.mp hs
    simp only [Impl.getInsertPos, hn, hx]
    by_cases hxv : x = v
    · simp [hxv]
    · simp only [hxv, if_false, Impl.getChild, hx]
      have hvx : ¬ v = x := fun e => hxv e.symm
      simp only [List.mem_append, List.mem_cons, hvx, false_or] at hv
      by_cases hgt : x > v
      · simp only [hgt, if_true]
        have hvl : v ∈ l.toList := by
          rcases hv with hv | hv
          · exact hv
          · exact absurd (hxr v hv) (not_lt_of_gt hgt)
        cases l with
        | nil => simp [Shape.toList] at hvl
        | node c cl cx cr =>
          have hc : n.left = some c := hl.1
          rw [hc] at hl
          simp only [hc]
          exact ihl hl hsl (by omega) hvl
      · simp only [hgt, if_false]
        have hvr : v ∈ r.toList := by
          rcases hv with hv | hv
          · exact absurd (hlx v hv) hgt
          · exact hv
        cases r with
        | nil => simp [Shape.toList] at hvr
        | node c cl cx cr =>
          have hc : n.right = some c := hrr.1
          rw [hc] at hrr
          simp only [hc]
          exact ihr hrr hsr (by omega) hvr

theorem getInsertPos_fresh {h : List (Node T)} {v : T} {t : Shape T} :
    ∀ {i fuel : Nat}, Rep h (some i) t → t.toList.Sorted (· < ·) → t.height ≤ fuel →
      v ∉ t.toList →
      ∃ p n, Impl.getInsertPos h v fuel i = some (some p) ∧ h[p]? = some n ∧
        Impl.getChild n v = none ∧ p ∈ t.ids ∧
        Rep (h.set p (Impl.setChild n v (some h.length)) ++ [⟨v, none, none, some p⟩])
          (some i) (t.attach h.length v) := by
  induction t with
  | nil => intro i fuel hr; exact absurd hr (by simp [Rep])
  | node j l x r ihl ihr =>
    intro j0 fuel hrep hs hf hv
    have hnd : (Shape.node j l x r).ids.Nodup := hrep.nodup_ids hs
    obtain ⟨hp, n, hn, hx, hl, hrr⟩ := hrep
    cases hp
    simp only [Shape.ids] at hnd
    obtain ⟨hndl, hndr, hdisj⟩ := List.nodup_append.mp hnd
    have hil : j ∉ l.ids := fun hm => hdisj hm (List.mem_cons_self _ _)
    have hir : j ∉ r.ids := (List.nodup_cons.mp hndr).1
    have hlr : ∀ a, a ∈ l.ids → a ∉ r.ids := fun a ha hb => hdisj ha (List.mem_cons_of_mem _ hb)
    simp only [Shape.height] at hf
    rcases fuel with _ | f
    · omega
    simp only [Shape.toList] at hs
    obtain ⟨hsl, hsr, hlx, hxr⟩ := sorted_mid_iff.mp hs
    simp only [Shape.toList, List.mem_append, List.mem_cons, not_or] at hv
    obtain ⟨hvl, hvx, hvr⟩ := hv
    have hxv : ¬ x = v := fun e => hvx e.symm
    simp only [Impl.getInsertPos, hn, hx, hxv, if_false, Impl.getChild, Shape.attach]
    by_cases hgt : x > v
    · simp only [hgt, if_true]
      cases l with
      | nil =>
        have hc : n.left = none := hl
        simp only [hc]
        refine ⟨j, n, rfl, hn, by simp [Impl.getChild, hx, hgt, hc], by simp [Shape.ids], ?_⟩
        have hset : Impl.setChild n v (some h.length) = { n with left := some h.length } := by
          simp [Impl.setChild, hx, hgt]
        rw [hset]
        refine ⟨rfl, _, getElem?_set_append_self _ _ hn, hx, ?_, ?_⟩
        · exact ⟨rfl, _, getElem?_set_append_length _ _ _, rfl, rfl, rfl⟩
        · exact (Rep.set_frame _ hrr hir).append _
      | node c cl cx cr =>
        have hc : n.left = some c := hl.1
        rw [hc] at hl
        simp only [hc]
        obtain ⟨p, m, h1, h2, h3, h4, h5⟩ := @ihl _ f hl hsl (by omega) hvl
        refine ⟨p, m, h1, h2, h3, List.mem_append_left _ h4, ?_⟩
        have hpi : p ≠ j := fun e => hil (e ▸ h4)
        refine ⟨rfl, n, getElem?_set_append_ne _ _ hn hpi, hx, ?_, ?_⟩
        · rw [hc]; exact h5
        · exact (Rep.set_frame _ hrr (hlr p h4)).append _
    · simp only [hgt, if_false]
      cases r with
      | nil =>
        have hc : n.right = none := hrr
        simp only [hc]
        refine ⟨j, n, rfl, hn, by simp [Impl.getChild, hx, hgt, hc], by simp [Shape.ids], ?_⟩
        have hset : Impl.setChild n v (some h.length) = { n with right := some h.length } := by
          simp [Impl.setChild, hx, hgt]
        rw [hset]
        refine ⟨rfl, _, getElem?_set_append_self _ _ hn, hx, ?_, ?_⟩
        · exact (Rep.set_frame _ hl hil).append _
        · exact ⟨rfl, _, getElem?_set_append_length _ _ _, rfl, rfl, rfl⟩
      | node c cl cx cr =>
        have hc : n.right = some c := hrr.1
        rw [hc] at hrr
        simp only [hc]
        obtain ⟨p, m, h1, h2, h3, h4, h5⟩ := @ihr _ f hrr hsr (by omega) hvr
        refine ⟨p, m, h1, h2, h3,
          List.mem_append_right _ (List.mem_cons_of_mem _ h4), ?_⟩
        have hpi : p ≠ j := fun e => hir (e ▸ h4)
        refine ⟨rfl, n, getElem?_set_append_ne _ _ hn hpi, hx, ?_, ?_⟩
        · exact (Rep.set_frame _ hl (fun hm => hlr p hm h4)).append _
        · rw [hc]; exact h5

end Order

/-! ### Reachable nodes -/

section Reach
variable {T : Type}

theorem reach_rep {h : List (Node T)} {t : Shape T} :
    ∀ {p : Option Nat} {fuel : Nat}, Rep h p t → t.height < fuel →
      reach h fuel p = t.pre := by
  induction t with
  | nil =>
    intro p fuel hp hf
    cases hp
    rcases fuel with _ | f
    · exact absurd hf (Nat.not_lt_zero _)
    rfl
  | node i l x r ihl ihr =>
    intro p fuel hrep hf
    obtain ⟨hp, n, hn, hv, hl, hrr⟩ := hrep
    subst hp
    rcases fuel with _ | f
    · exact absurd hf (Nat.not_lt_zero _)
    simp only [Shape.height] at hf
    simp only [reach, hn, @ihl _ f hl (by omega), @ihr _ f hrr (by omega),
      Shape.pre]

theorem Shape.pre_perm (t : Shape T) : t.pre.Perm t.ids := by
  induction t with
  | nil => exact List.Perm.refl _
  | node i l x r ihl ihr =>
    simp only [Shape.pre, Shape.ids]
    have h1 : (i :: (l.pre ++ r.pre)).Perm (i :: (l.ids ++ r.ids)) :=
      (ihl.append ihr).cons i
    exact h1.trans List.perm_middle.symm

theorem Shape.length_ids (t : Shape T) : t.ids.length = t.toList.length := by
  induction t with
  | nil => rfl
  | node i l x r ihl ihr => simp [Shape.ids, Shape.toList, ihl, ihr]

end Reach

section Nodes
variable {T : Type} [LinearOrder T]

theorem nodes_of_rep {s : Impl T} {t : Shape T} (hr : Rep s.heap s.root t)
    (hs : t.toList.Sorted (· < ·)) : Tree.nodes s = t.pre := by
  have hnd : t.pre.Nodup := (t.pre_perm.nodup_iff).mpr (hr.nodup_ids hs)
  simp only [Tree.nodes, reach_rep hr (hr.height_lt hs)]
  exact List.Nodup.dedup hnd

theorem nodes_length_of_rep {s : Impl T} {t : Shape T} (hr : Rep s.heap s.root t)
    (hs : t.toList.Sorted (· < ·)) : (Tree.nodes s).length = t.toList.length := by
  rw [nodes_of_rep hr hs, t.pre_perm.length_eq, t.length_ids]

end Nodes

/-! ### Whole-tree operations on well-formed states -/

section State
variable {T : Type} [LinearOrder T]

theorem insert_present {s : Impl T} {t : Shape T} {v : T} (hr : Rep s.heap s.root t)
    (hs : t.toList.Sorted (· < ·)) (hv : v ∈ t.toList) : Tree.insert s v = some s := by
  cases t with
  | nil => simp [Shape.toList] at hv
  | node i l x r =>
    have hroot : s.root = some i := hr.1
    rw [hroot] at hr
    have hf : (Shape.node i l x r).height ≤ s.heap.length + 1 :=
      Nat.le_of_lt (hr.height_lt hs)
    simp only [Tree.insert, hroot, getInsertPos_mem hr hs hf hv]

theorem insert_absent {s : Impl T} {t : Shape T} {v : T} (hr : Rep s.heap s.root t)
    (hs : t.toList.Sorted (· < ·)) (hv : v ∉ t.toList) :
    ∃ s1, Tree.insert s v = some s1 ∧ Rep s1.heap s1.root (t.attach s.heap.length v) ∧
      s1.size = sizeInc s.size ∧
      ((s.root = none ∧ s1.root = some s.heap.length ∧
          s1.heap = s.heap ++ [⟨v, none, none, none⟩]) ∨
        ∃ p n, p ∈ t.ids ∧ s.heap[p]? = some n ∧ Impl.getChild n v = none ∧
          s1.root = s.root ∧
          s1.heap = s.heap.set p (Impl.setChild n v (some s.heap.length))
            ++ [⟨v, none, none, some p⟩]) := by
  cases t with
  | nil =>
    have hroot : s.root = none := hr
    refine ⟨⟨s.heap ++ [⟨v, none, none, none⟩], some s.heap.length, sizeInc s.size⟩,
      by simp only [Tree.insert, hroot], ?_, rfl, Or.inl ⟨hroot, rfl, rfl⟩⟩
    exact ⟨rfl, _, List.getElem?_concat_length _ _, rfl, rfl, rfl⟩
  | node i l x r =>
    have hroot : s.root = some i := hr.1
    rw [hroot] at hr
    have hf : (Shape.node i l x r).height ≤ s.heap.length + 1 :=
      Nat.le_of_lt (hr.height_lt hs)
    obtain ⟨p, n, h1, h2, h3, h4, h5⟩ := getInsertPos_fresh hr hs hf hv
    refine ⟨⟨s.heap.set p (Impl.setChild n v (some s.heap.length))
        ++ [⟨v, none, none, some p⟩], s.root, sizeInc s.size⟩,
      by simp only [Tree.insert, hroot, h1, h2], ?_, rfl, Or.inr ⟨p, n, h4, h2, h3, rfl, rfl⟩⟩
    simpa only [hroot] using h5

theorem inorder_of_rep {s : Impl T} {t : Shape T} (hr : Rep s.heap s.root t)
    (hs : t.toList.Sorted (· < ·)) : Tree.inorder s = some t.toList :=
  inorder_rep hr (hr.height_lt hs)

theorem exists_of_rep {s : Impl T} {t : Shape T} (v : T) (hr : Rep s.heap s.root t)
    (hs : t.toList.Sorted (· < ·)) : Tree.exists s v = some (decide (v ∈ t.toList)) := by
  obtain ⟨r, h1, h2, _⟩ := find_rep v hr hs (hr.height_lt hs)
  simp only [Tree.exists, h1, Option.map_some', Option.some.injEq]
  by_cases hv : v ∈ t.toList
  · simp [hv, h2.mpr hv]
  · have : ¬ r.isSome = true := fun e => hv (h2.mp e)
    simp [hv, this]

theorem sizeInc_mod (n : Nat) : sizeInc (n % SIZE_MOD) = (n + 1) % SIZE_MOD := by
  simp [sizeInc, Nat.add_mod]

theorem built_insert {s : Impl T} {t : Shape T} (v : T) (hb : Built s t) :
    ∃ s1 t1, Tree.insert s v = some s1 ∧ Built s1 t1 ∧
      (∀ x, x ∈ t1.toList ↔ x = v ∨ x ∈ t.toList) := by
  obtain ⟨hr, hs, hz⟩ := hb
  by_cases hv : v ∈ t.toList
  · refine ⟨s, t, insert_present hr hs hv, ⟨hr, hs, hz⟩, ?_⟩
    intro x
    constructor
    · exact Or.inr
    · rintro (rfl | hx)
      · exact hv
      · exact hx
  · obtain ⟨s1, h1, h2, h3, _⟩ := insert_absent hr hs hv
    have hp := Shape.attach_perm s.heap.length hv
    refine ⟨s1, _, h1, ⟨h2, Shape.attach_sorted _ hv hs, ?_⟩, ?_⟩
    · rw [h3, hz, sizeInc_mod, hp.length_eq, List.length_cons]
    · intro x
      rw [hp.mem_iff, List.mem_cons]

theorem built_insertList {xs : List T} :
    ∀ {s : Impl T} {t : Shape T}, Built s t →
      ∃ s1 t1, Tree.insertList s xs = some s1 ∧ Built s1 t1 ∧
        (∀ x, x ∈ t1.toList ↔ x ∈ xs ∨ x ∈ t.toList) := by
  induction xs with
  | nil =>
    intro s t hb
    exact ⟨s, t, rfl, hb, by simp⟩
  | cons v vs ih =>
    intro s t hb
    obtain ⟨s1, t1, h1, hb1, hm1⟩ := built_insert v hb
    obtain ⟨s2, t2, h2, hb2, hm2⟩ := ih hb1
    refine ⟨s2, t2, by simp only [Tree.insertList, h1, h2], hb2, ?_⟩
    intro x
    rw [hm2, hm1, List.mem_cons]
    tauto

theorem built_new : Built (Impl.new T) .nil :=
  ⟨rfl, List.sorted_nil, rfl⟩

theorem built_ofList (xs : List T) :
    ∃ s t, Tree.ofList xs = some s ∧ Built s t ∧ t.toList = xs.toFinset.sort (· ≤ ·) := by
  obtain ⟨s, t, h1, hb, hm⟩ := @built_insertList T _ xs _ _ built_new
  refine ⟨s, t, h1, hb, ?_⟩
  have hnd : t.toList.Nodup := List.Sorted.nodup hb.2.1
  have hle : t.toList.Sorted (· ≤ ·) := hb.2.1.imp le_of_lt
  have hfs : t.toList.toFinset = xs.toFinset := by
    ext x
    simp [hm, Shape.toList]
  rw [← hfs]
  exact ((List.toFinset_sort (· ≤ ·) hnd).mpr hle).symm

end State

/-! ### The claims -/

section Claims
variable {T : Type} [LinearOrder T]

/-- C1 (code evaluated at the failing inputs): `remove` of a present value does
not make it absent when its node is the root with at most one child or a left
child with at most one child.  After `insert 1; remove 1` the call `exists(1)`
is still true, and after `insert 5; insert 3; remove 3` the call `exists(3)`
is still true. -/
theorem remove_keeps_value_present :
    (Tree.ofList [1]).bind (fun s => Tree.exists s 1) = some true ∧
    (Tree.ofList [1]).bind (fun s => (Tree.remove s 1).bind (fun s1 => Tree.exists s1 1))
      = some true ∧
    (Tree.ofList [5, 3]).bind (fun s => Tree.exists s 3) = some true ∧
    (Tree.ofList [5, 3]).bind (fun s => (Tree.remove s 3).bind (fun s1 => Tree.exists s1 3))
      = some true := by
  decide

/-- C2 (code evaluated at the failing input): on the tree built by inserting
5, 3, 8, 1, 4 the call `remove(3)` leaves the in-order traversal `[1, 1, 5, 8]`,
not `[1, 4, 5, 8]`: the value 4 is no longer present and 1 occurs twice, while
`size()` is 4. -/
theorem remove_two_children_drops_right_subtree :
    (Tree.ofList [5, 3, 8, 1, 4]).bind Tree.inorder = some [1, 3, 4, 5, 8] ∧
    ((Tree.ofList [5, 3, 8, 1, 4]).bind (fun s => Tree.remove s 3)).bind Tree.inorder
      = some [1, 1, 5, 8] ∧
    ((Tree.ofList [5, 3, 8, 1, 4]).bind (fun s => Tree.remove s 3)).bind
      (fun s1 => Tree.exists s1 4) = some false ∧
    ((Tree.ofList [5, 3, 8, 1, 4]).bind (fun s => Tree.remove s 3)).map Tree.size
      = some 4 := by
  decide

/-- C3: for every list `xs` whose number of distinct elements fits in `size_t`,
building a tree from `xs` succeeds, its in-order traversal is the strictly
increasing list of the distinct elements of `xs`, and `size()` is the number of
distinct elements. -/
theorem ofList_inorder_sorted_distinct (xs : List T) (hfit : xs.toFinset.card < SIZE_MOD) :
    ∃ s, Tree.ofList xs = some s ∧
      Tree.inorder s = some (xs.toFinset.sort (· ≤ ·)) ∧
      (xs.toFinset.sort (· ≤ ·)).Sorted (· < ·) ∧
      (∀ x, x ∈ xs.toFinset.sort (· ≤ ·) ↔ x ∈ xs) ∧
      Tree.size s = xs.toFinset.card := by
  obtain ⟨s, t, h1, ⟨hr, hs, hz⟩, ht⟩ := built_ofList xs
  refine ⟨s, h1, ?_, Finset.sort_sorted_lt _, ?_, ?_⟩
  · rw [← ht]
    exact inorder_of_rep hr hs
  · intro x
    simp
  · rw [Tree.size, hz, ht, Finset.length_sort]
    exact Nat.mod_eq_of_lt hfit

/-- C3 at the list 5, 3, 8, 1, 4: `size()` is 5 and the in-order traversal is
`[1, 3, 4, 5, 8]`. -/
theorem ofList_inorder_sorted_distinct_witness :
    ([5, 3, 8, 1, 4] : List Nat).toFinset.card < SIZE_MOD ∧
    (∃ s, Tree.ofList [5, 3, 8, 1, 4] = some s ∧
      Tree.inorder s = some (([5, 3, 8, 1, 4] : List Nat).toFinset.sort (· ≤ ·)) ∧
      (([5, 3, 8, 1, 4] : List Nat).toFinset.sort (· ≤ ·)).Sorted (· < ·) ∧
      (∀ x, x ∈ ([5, 3, 8, 1, 4] : List Nat).toFinset.sort (· ≤ ·) ↔ x ∈ [5, 3, 8, 1, 4]) ∧
      Tree.size s = ([5, 3, 8, 1, 4] : List Nat).toFinset.card) ∧
    (Tree.ofList [5, 3, 8, 1, 4]).bind Tree.inorder = some [1, 3, 4, 5, 8] ∧
    (Tree.ofList [5, 3, 8, 1, 4]).map Tree.size = some 5 :=
  ⟨by decide, ofList_inorder_sorted_distinct [5, 3, 8, 1, 4] (by decide), by decide, by decide⟩

/-- C4: on the tree built from any list `xs`, `exists(v)` returns true exactly
when `v` is an element of `xs`; in particular after inserting 5, 3, 8, 1, 4,
`exists(4)` is true and `exists(9)` is false. -/
theorem exists_iff_mem (xs : List T) (v : T) :
    (∃ s, Tree.ofList xs = some s ∧ Tree.exists s v = some (decide (v ∈ xs))) ∧
    (Tree.ofList [5, 3, 8, 1, 4]).bind (fun s => Tree.exists s 4) = some true ∧
    (Tree.ofList [5, 3, 8, 1, 4]).bind (fun s => Tree.exists s 9) = some false := by
  refine ⟨?_, by decide, by decide⟩
  obtain ⟨s, t, h1, ⟨hr, hs, _⟩, ht⟩ := built_ofList xs
  refine ⟨s, h1, ?_⟩
  rw [exists_of_rep v hr hs, ht]
  simp

/-- C5 (code evaluated at the failing input): after inserting 5, 3, 8, 2 the call
`remove(5)` leaves a graph whose in-order traversal is `[2, 3, 3, 2]`, which is
not non-decreasing. -/
theorem remove_breaks_inorder_order :
    ((Tree.ofList [5, 3, 8, 2]).bind (fun s => Tree.remove s 5)).bind Tree.inorder
      = some [2, 3, 3, 2] ∧
    ¬ ([2, 3, 3, 2] : List Nat).Sorted (· ≤ ·) := by
  decide

/-- C6 (code evaluated at the failing input): after `insert 1; remove 1` the
counter `size()` is 0 while one node is still reachable from the root. -/
theorem remove_root_size_below_node_count :
    ((Tree.ofList [1]).bind (fun s => Tree.remove s 1)).map Tree.size = some 0 ∧
    ((Tree.ofList [1]).bind (fun s => Tree.remove s 1)).map Tree.nodes = some [0] := by
  decide

/-- C7: let the in-order traversal of a tree be strictly increasing (BST
ordering, no duplicates), let `size()` equal the number of reachable nodes and
leave room for one more, and let `v` be absent.  Then `insert(v)` succeeds and
allocates exactly one node, a leaf holding `v`; it becomes the root of an empty
tree, or else fills the empty child slot (chosen by `getChild`) of a reachable
node `p`, and nothing else in the store changes.  `size()` and the number of
reachable nodes both grow by one, and the in-order traversal is again strictly
increasing and holds `v` together with the old values. -/
theorem insert_absent_attaches_leaf (s : Impl T) (v : T) (xs : List T)
    (hin : Tree.inorder s = some xs) (hsorted : xs.Sorted (· < ·))
    (hsize : Tree.size s = (Tree.nodes s).length)
    (hroom : Tree.size s + 1 < SIZE_MOD)
    (habsent : Tree.exists s v = some false) :
    ∃ s1, Tree.insert s v = some s1 ∧
      Tree.size s1 = Tree.size s + 1 ∧
      (Tree.nodes s1).length = (Tree.nodes s).length + 1 ∧
      Tree.size s1 = (Tree.nodes s1).length ∧
      ((s.root = none ∧ s1.root = some s.heap.length ∧
          s1.heap = s.heap ++ [⟨v, none, none, none⟩]) ∨
        ∃ p n, p ∈ Tree.nodes s ∧ s.heap[p]? = some n ∧ Impl.getChild n v = none ∧
          s1.root = s.root ∧
          s1.heap = s.heap.set p (Impl.setChild n v (some s.heap.length))
            ++ [⟨v, none, none, some p⟩]) ∧
      ∃ ys, Tree.inorder s1 = some ys ∧ ys.Sorted (· < ·) ∧ ys.Perm (v :: xs) := by
  obtain ⟨t, hr, rfl⟩ := rep_of_inorder hin
  have hv : v ∉ t.toList := by
    have h1 := exists_of_rep v hr hsorted
    rw [habsent] at h1
    simpa using h1
  obtain ⟨s1, h1, h2, h3, h4⟩ := insert_absent hr hsorted hv
  have hs1 := Shape.attach_sorted s.heap.length hv hsorted
  have hp1 := Shape.attach_perm s.heap.length hv
  have hz : Tree.size s1 = Tree.size s + 1 := by
    simp only [Tree.size] at hroom ⊢
    rw [h3, sizeInc, Nat.mod_eq_of_lt hroom]
  have hn : (Tree.nodes s1).length = (Tree.nodes s).length + 1 := by
    rw [nodes_length_of_rep h2 hs1, nodes_length_of_rep hr hsorted, hp1.length_eq,
      List.length_cons]
  refine ⟨s1, h1, hz, hn, by rw [hz, hn, hsize], ?_, _, inorder_of_rep h2 hs1, hs1, hp1⟩
  · rcases h4 with h4 | ⟨p, n, hp, h5⟩
    · exact Or.inl h4
    · refine Or.inr ⟨p, n, ?_, h5⟩
      rw [nodes_of_rep hr hsorted]
      exact (t.pre_perm.mem_iff).mpr hp

/-- C7 at the tree built from 5, 3, 8 and the value 4. -/
theorem insert_absent_attaches_leaf_witness :
    ∃ s1, Tree.insert (⟨[⟨5, some 1, some 2, none⟩, ⟨3, none, none, some 0⟩,
        ⟨8, none, none, some 0⟩], some 0, 3⟩ : Impl Nat) 4 = some s1 ∧
      Tree.size s1 = 3 + 1 ∧ (Tree.nodes s1).length = 3 + 1 ∧
      Tree.size s1 = (Tree.nodes s1).length ∧
      ∃ ys, Tree.inorder s1 = some ys ∧ ys.Sorted (· < ·) ∧ ys.Perm [4, 3, 5, 8] := by
  obtain ⟨s1, h1, h2, h3, h4, _, h5⟩ := insert_absent_attaches_leaf
    (⟨[⟨5, some 1, some 2, none⟩, ⟨3, none, none, some 0⟩,
        ⟨8, none, none, some 0⟩], some 0, 3⟩ : Impl Nat) 4 [3, 5, 8]
    (by decide) (by decide) (by decide) (by decide) (by decide)
  exact ⟨s1, h1, h2, h3, h4, h5⟩

/-- C8: on the tree built from any list `xs`, `insert(v)` succeeds, and a second
`insert(v)` right after it returns the very same state: same store (shape and
values at every node), same root and same `size()`, and therefore the same
`exists(w)` for every `w`. -/
theorem insert_idempotent (xs : List T) (v : T) :
    ∃ s1, (Tree.ofList xs).bind (fun s => Tree.insert s v) = some s1 ∧
      Tree.insert s1 v = some s1 ∧
      (Tree.insert s1 v).map Tree.size = some (Tree.size s1) ∧
      ∀ w, (Tree.insert s1 v).bind (fun s2 => Tree.exists s2 w) = Tree.exists s1 w := by
  obtain ⟨s, t, h1, hb, _⟩ := built_ofList xs
  obtain ⟨s1, t1, h2, ⟨hr, hs, _⟩, hm⟩ := built_insert v hb
  have h3 : Tree.insert s1 v = some s1 := insert_present hr hs ((hm v).mpr (Or.inl rfl))
  refine ⟨s1, by simp only [h1, Option.some_bind, h2], h3, by rw [h3]; rfl, ?_⟩
  intro w
  rw [h3]
  rfl

/-- C9: for every state, empty or not, and every value `v` for which
`exists(v)` is false, `remove(v)` returns the state unchanged (same store,
same root, same `size()`). -/
theorem remove_absent_unchanged (s : Impl T) (v : T)
    (habsent : Tree.exists s v = some false) : Tree.remove s v = some s := by
  unfold Tree.exists at habsent
  unfold Tree.remove
  cases hf : Impl.find s.heap v (s.heap.length + 1) s.root with
  | none => simp [hf] at habsent
  | some r =>
    cases r with
    | none => rfl
    | some i => simp [hf] at habsent

/-- C9 at the empty tree and at the tree built from 5, 3, 8, for the absent
value 4. -/
theorem remove_absent_unchanged_witness :
    Tree.remove (Impl.new Nat) 4 = some (Impl.new Nat) ∧
    Tree.remove (⟨[⟨5, some 1, some 2, none⟩, ⟨3, none, none, some 0⟩,
        ⟨8, none, none, some 0⟩], some 0, 3⟩ : Impl Nat) 4
      = some ⟨[⟨5, some 1, some 2, none⟩, ⟨3, none, none, some 0⟩,
        ⟨8, none, none, some 0⟩], some 0, 3⟩ :=
  ⟨remove_absent_unchanged (Impl.new Nat) 4 (by decide),
   remove_absent_unchanged _ 4 (by decide)⟩

/-- C10 (code evaluated at the failing inputs): removing the value of a root
with at most one child leaves `root` pointing at the same node.  After
`insert 1; remove 1` the root is still node 0 and `exists(1)` is true; after
`insert 5; insert 3; remove 5` the root is still node 0 holding 5, its child
is not promoted, and `exists(5)` is true. -/
theorem remove_root_keeps_root :
    ((Tree.ofList [1]).bind (fun s => Tree.remove s 1)).map (fun s => s.root)
      = some (some 0) ∧
    ((Tree.ofList [1]).bind (fun s => Tree.remove s 1)).bind (fun s => Tree.exists s 1)
      = some true ∧
    ((Tree.ofList [5, 3]).bind (fun s => Tree.remove s 5))
      = some ⟨[⟨5, some 1, none, none⟩, ⟨3, none, none, none⟩], some 0, 1⟩ ∧
    ((Tree.ofList [5, 3]).bind (fun s => Tree.remove s 5)).bind (fun s => Tree.exists s 5)
      = some true := by
  decide

end Claims

/-! ### Shape and values read off the store -/

section Skeleton
variable {T : Type}

theorem skel_rep {h : List (Node T)} {t : Shape T} :
    ∀ {p : Option Nat} {fuel : Nat}, Rep h p t → t.height < fuel →
      Impl.skel h fuel p = some t.skel := by
  induction t with
  | nil =>
    intro p fuel hp hf
    cases hp
    rcases fuel with _ | f
    · exact absurd hf (Nat.not_lt_zero _)
    rfl
  | node i l x r ihl ihr =>
    intro p fuel hrep hf
    obtain ⟨hp, n, hn, hv, hl, hrr⟩ := hrep
    subst hp
    rcases fuel with _ | f
    · exact absurd hf (Nat.not_lt_zero _)
    simp only [Shape.height] at hf
    simp only [Impl.skel, hn, @ihl _ f hl (by omega), @ihr _ f hrr (by omega), Shape.skel, hv]

theorem rep_of_skel {h : List (Node T)} :
    ∀ {fuel : Nat} {p : Option Nat} {k : Skel T}, Impl.skel h fuel p = some k →
      ∃ t : Shape T, Rep h p t ∧ t.skel = k ∧ t.height < fuel := by
  intro fuel
  induction fuel with
  | zero => intro p k hk; simp [Impl.skel] at hk
  | succ f ih =>
    intro p k hk
    cases p with
    | none =>
      simp only [Impl.skel, Option.some.injEq] at hk
      exact ⟨.nil, rfl, hk, Nat.succ_pos _⟩
    | some i =>
      simp only [Impl.skel] at hk
      cases hn : h[i]? with
      | none => simp [hn] at hk
      | some n =>
        simp only [hn] at hk
        cases hl : Impl.skel h f n.left with
        | none => simp [hl] at hk
        | some ll =>
          cases hr : Impl.skel h f n.right with
          | none => simp [hl, hr] at hk
          | some rr =>
            simp only [hl, hr, Option.some.injEq] at hk
            obtain ⟨tl, htl, rfl, hhl⟩ := ih hl
            obtain ⟨tr, htr, rfl, hhr⟩ := ih hr
            refine ⟨.node i tl n.val tr, ⟨rfl, n, hn, rfl, htl, htr⟩, hk, ?_⟩
            simp only [Shape.height]
            omega

theorem rep_of_inorder_height {h : List (Node T)} :
    ∀ {fuel : Nat} {p : Option Nat} {xs : List T}, Impl.inorder h fuel p = some xs →
      ∃ t : Shape T, Rep h p t ∧ t.toList = xs ∧ t.height < fuel := by
  intro fuel
  induction fuel with
  | zero => intro p xs hx; simp [Impl.inorder] at hx
  | succ f ih =>
    intro p xs hx
    cases p with
    | none =>
      simp only [Impl.inorder, Option.some.injEq] at hx
      exact ⟨.nil, rfl, hx, Nat.succ_pos _⟩
    | some i =>
      simp only [Impl.inorder] at hx
      cases hn : h[i]? with
      | none => simp [hn] at hx
      | some n =>
        simp only [hn] at hx
        cases hl : Impl.inorder h f n.left with
        | none => simp [hl] at hx
        | some ll =>
          cases hr : Impl.inorder h f n.right with
          | none => simp [hl, hr] at hx
          | some rr =>
            simp only [hl, hr, Option.some.injEq] at hx
            obtain ⟨tl, htl, rfl, hhl⟩ := ih hl
            obtain ⟨tr, htr, rfl, hhr⟩ := ih hr
            refine ⟨.node i tl n.val tr, ⟨rfl, n, hn, rfl, htl, htr⟩, hx, ?_⟩
            simp only [Shape.height]
            omega

end Skeleton

section Maximum
variable {T : Type} [LinearOrder T]

theorem findMax_rep {h : List (Node T)} {t : Shape T} :
    ∀ {i fuel : Nat}, Rep h (some i) t → t.toList.Sorted (· < ·) → t.height < fuel →
      ∃ m n, Impl.findMax h fuel (some i) = some (some m) ∧ m ∈ t.pre ∧
        h[m]? = some n ∧ n.right = none ∧ n.val ∈ t.toList ∧ ∀ x ∈ t.toList, x ≤ n.val := by
  induction t with
  | nil => intro i fuel hr; exact absurd hr (by simp [Rep])
  | node j l x r ihl ihr =>
    intro j0 fuel hrep hs hf
    obtain ⟨hp, n, hn, hx, hl, hrr⟩ := hrep
    cases hp
    rcases fuel with _ | f
    · exact absurd hf (Nat.not_lt_zero _)
    simp only [Shape.height] at hf
    simp only [Shape.toList] at hs
    obtain ⟨hsl, hsr, hlx, hxr⟩ := sorted_mid_iff.mp hs
    cases hc : n.right with
    | none =>
      rw [hc] at hrr
      have hrnil : r = .nil := hrr.eq_nil
      subst hrnil
      refine ⟨j, n, by simp only [Impl.findMax, hn, hc], by simp [Shape.pre], hn, hc,
        by simp [Shape.toList, hx], ?_⟩
      intro y hy
      simp only [Shape.toList, List.append_nil, List.mem_append, List.mem_singleton] at hy
      rcases hy with hy | hy
      · exact le_of_lt (hx ▸ hlx y hy)
      · exact le_of_eq (hy.trans hx.symm)
    | some c =>
      rw [hc] at hrr
      obtain ⟨m, nm, h1, h2, h3, h4, h5, h6⟩ := @ihr c f hrr hsr (by omega)
      refine ⟨m, nm, by simp only [Impl.findMax, hn, hc, h1], ?_, h3, h4, ?_, ?_⟩
      · simp only [Shape.pre, List.mem_cons, List.mem_append]
        exact Or.inr (Or.inr h2)
      · simp only [Shape.toList, List.mem_append, List.mem_cons]
        exact Or.inr (Or.inr h5)
      · intro y hy
        simp only [Shape.toList, List.mem_append, List.mem_cons] at hy
        have hxm : x < nm.val := hxr _ h5
        rcases hy with hy | hy | hy
        · exact le_of_lt (lt_trans (hlx y hy) hxm)
        · exact le_of_lt (hy ▸ hxm)
        · exact h6 y hy

end Maximum

/-! ### Cloning -/

section Clone
variable {T : Type}

theorem SameLinks.of_eq {h h1 : List (Node T)} {i : Nat} (he : h1[i]? = h[i]?) :
    SameLinks h h1 i := by
  intro n hn
  exact ⟨n, he.trans hn, rfl, rfl, rfl⟩

theorem Rep.congr {h h1 : List (Node T)} {t : Shape T} :
    ∀ {p : Option Nat}, Rep h p t → (∀ i ∈ t.ids, SameLinks h h1 i) → Rep h1 p t := by
  induction t with
  | nil => intro p hp _; exact hp
  | node i l v r ihl ihr =>
    intro p hr hs
    obtain ⟨hp, n, hn, hv, hl, hrr⟩ := hr
    obtain ⟨n1, h1n, h1v, h1l, h1r⟩ := hs i (by simp [Shape.ids]) n hn
    refine ⟨hp, n1, h1n, h1v.trans hv, ?_, ?_⟩
    · rw [h1l]
      exact ihl hl (fun j hj => hs j (by simp [Shape.ids, hj]))
    · rw [h1r]
      exact ihr hrr (fun j hj => hs j (by simp [Shape.ids, hj]))

theorem Rep.getElem {h : List (Node T)} {t : Shape T} {i : Nat} (hr : Rep h (some i) t) :
    ∃ n, h[i]? = some n := by
  cases t with
  | nil => exact absurd hr (by simp [Rep])
  | node j l v r =>
    obtain ⟨hp, n, hn, _⟩ := hr
    cases hp
    exact ⟨n, hn⟩

theorem link_spec (toLeft : Bool) {hd : List (Node T)} {k c : Nat} {nk nc : Node T}
    (hk : hd[k]? = some nk) (hc : hd[c]? = some nc) (hne : k ≠ c) :
    ∃ hd2, Node.link toLeft hd k c = some hd2 ∧ hd2.length = hd.length ∧
      hd2[k]? = some (if toLeft then { nk with left := some c }
        else { nk with right := some c }) ∧
      (∀ j, j ≠ k → SameLinks hd hd2 j) ∧
      (∀ j, j ≠ k → j ≠ c → hd2[j]? = hd[j]?) := by
  have hklt : k < hd.length := (List.getElem?_eq_some.mp hk).1
  have hclt : c < hd.length := (List.getElem?_eq_some.mp hc).1
  generalize hnk1 : (if toLeft then ({ nk with left := some c } : Node T)
    else { nk with right := some c }) = nk1
  have h1 : (hd.set k nk1)[c]? = some nc := by
    rw [List.getElem?_set_ne hne]; exact hc
  refine ⟨(hd.set k nk1).set c { nc with parent := some k },
    by simp only [Node.link, hk, hnk1, h1], by simp, ?_, ?_, ?_⟩
  · rw [List.getElem?_set_ne (Ne.symm hne)]
    exact List.getElem?_set_self hklt
  · intro j hjk n hn
    by_cases hjc : j = c
    · subst hjc
      rw [hc] at hn
      cases hn
      exact ⟨_, List.getElem?_set_self (by simpa using hclt), rfl, rfl, rfl⟩
    · refine ⟨n, ?_, rfl, rfl, rfl⟩
      rw [List.getElem?_set_ne (Ne.symm hjc), List.getElem?_set_ne (Ne.symm hjk)]
      exact hn
  · intro j hjk hjc
    rw [List.getElem?_set_ne (Ne.symm hjc), List.getElem?_set_ne (Ne.symm hjk)]

theorem cloneChild_rep {hs : List (Node T)}
    {F : List (Node T) → Nat → Option (List (Node T) × Nat)} (toLeft : Bool)
    {hb : List (Node T)} {k : Nat} {nk : Node T} {child : Option Nat} {t : Shape T}
    (hk : hb[k]? = some nk) (hslot : if toLeft then nk.left = none else nk.right = none)
    (hrep : Rep hs child t)
    (hrec : ∀ c, child = some c → Cloned F t c) :
    ∃ hd2 t1 nk1, Node.cloneChild F toLeft hb k child = some hd2 ∧
      hb.length + t1.height ≤ hd2.length ∧ t1.skel = t.skel ∧
      (∀ j ∈ t1.ids, hb.length ≤ j) ∧
      (∀ j, j < hb.length → j ≠ k → hd2[j]? = hb[j]?) ∧
      hd2[k]? = some nk1 ∧ nk1.val = nk.val ∧
      (if toLeft then nk1.right = nk.right ∧ Rep hd2 nk1.left t1
        else nk1.left = nk.left ∧ Rep hd2 nk1.right t1) := by
  have hklt : k < hb.length := (List.getElem?_eq_some.mp hk).1
  cases child with
  | none =>
    have ht : t = .nil := hrep.eq_nil
    subst ht
    refine ⟨hb, .nil, nk, rfl, by simp [Shape.height], rfl, by simp [Shape.ids],
      fun _ _ _ => rfl, hk, rfl, ?_⟩
    cases toLeft
    · exact ⟨rfl, hslot⟩
    · exact ⟨rfl, hslot⟩
  | some c =>
    obtain ⟨hd1, t1, h1, h2, h3, h4, h5, h6⟩ := hrec c rfl hb
    obtain ⟨nc, hnc⟩ := h2.getElem
    have hk1 : hd1[k]? = some nk := (h5 k hklt).trans hk
    have hne : k ≠ hb.length := Nat.ne_of_lt hklt
    obtain ⟨hd2, g1, g2, g3, g4, g5⟩ := link_spec toLeft hk1 hnc hne
    have hrep2 : Rep hd2 (some hb.length) t1 :=
      h2.congr (fun j hj => g4 j (fun e => by have := h6 j hj; omega))
    refine ⟨hd2, t1, _, by simp only [Node.cloneChild, h1, g1], by omega, h3, h6, ?_, g3, ?_, ?_⟩
    · intro j hj hjk
      rw [g5 j hjk (Nat.ne_of_lt hj), h5 j hj]
    · cases toLeft <;> rfl
    · cases toLeft
      · exact ⟨rfl, hrep2⟩
      · exact ⟨rfl, hrep2⟩

theorem clone_rep {hs : List (Node T)} {t : Shape T} :
    ∀ {i fuel : Nat}, Rep hs (some i) t → t.height < fuel →
      Cloned (Node.clone hs fuel) t i := by
  induction t with
  | nil => intro i fuel hr; exact absurd hr (by simp [Rep])
  | node j l x r ihl ihr =>
    intro j0 fuel hrep hf hd
    obtain ⟨hp, n, hn, hx, hl, hrr⟩ := hrep
    cases hp
    rcases fuel with _ | f
    · exact absurd hf (Nat.not_lt_zero _)
    simp only [Shape.height] at hf
    have hk0 : (hd ++ [(⟨n.val, none, none, none⟩ : Node T)])[hd.length]? =
        some ⟨n.val, none, none, none⟩ := List.getElem?_concat_length _ _
    have hlen0 : (hd ++ [(⟨n.val, none, none, none⟩ : Node T)]).length = hd.length + 1 := by
      simp
    obtain ⟨hd2, tl, nk1, a1, a2, a3, a4, a5, a6, a7, a8⟩ :=
      cloneChild_rep (F := Node.clone hs f) true hk0 rfl hl
        (fun c hc => @ihl c f (hc ▸ hl) (by omega))
    simp only [if_true] at a8
    obtain ⟨a8r, a8l⟩ := a8
    obtain ⟨hd4, tr, nk2, b1, b2, b3, b4, b5, b6, b7, b8⟩ :=
      cloneChild_rep (F := Node.clone hs f) false a6 (a8r.trans rfl) hrr
        (fun c hc => @ihr c f (hc ▸ hrr) (by omega))
    simp only [Bool.false_eq_true, if_false] at b8
    obtain ⟨b8l, b8r⟩ := b8
    have hrepl : Rep hd4 nk2.left tl := by
      rw [b8l]
      refine a8l.congr (fun i hi => SameLinks.of_eq ?_)
      have h1 := a4 i hi
      have h2 := a8l.lt_length i hi
      exact b5 i h2 (by omega)
    refine ⟨hd4, .node hd.length tl n.val tr, by simp only [Node.clone, hn, a1, b1],
      ⟨rfl, nk2, b6, b7.trans a7, hrepl, b8r⟩, by simp only [Shape.skel, a3, b3, hx], ?_, ?_, ?_⟩
    · simp only [Shape.height]
      omega
    · intro i hi
      have h1 : i < hd2.length := by omega
      rw [b5 i h1 (Nat.ne_of_lt hi), a5 i (by omega) (Nat.ne_of_lt hi)]
      exact List.getElem?_append_left hi
    · intro i hi
      simp only [Shape.ids, List.mem_append, List.mem_cons] at hi
      rcases hi with hi | hi | hi
      · have := a4 i hi; omega
      · omega
      · have := b4 i hi; omega

end Clone

/-! ### Equality -/

section Equality
variable {T : Type} [LinearOrder T]

end Equality

/-! ### Copies -/

section CopyState
variable {T : Type}

theorem copy_rep {a : Impl T} {t : Shape T} (hr : Rep a.heap a.root t)
    (hf : t.height < a.heap.length + 1) (hd : List (Node T)) :
    ∃ b t1, Tree.operatorAssign ⟨hd, none, 0⟩ a = some b ∧ Rep b.heap b.root t1 ∧
      t1.skel = t.skel ∧ t1.height < b.heap.length + 1 ∧ b.size = a.size := by
  cases hroot : a.root with
  | none =>
    rw [hroot] at hr
    have ht : t = .nil := hr.eq_nil
    subst ht
    exact ⟨⟨hd, none, a.size⟩, .nil, by simp only [Tree.operatorAssign, hroot], rfl, rfl,
      Nat.succ_pos _, rfl⟩
  | some r =>
    rw [hroot] at hr
    obtain ⟨hd1, t1, h1, h2, h3, h4, _, _⟩ := clone_rep hr hf hd
    refine ⟨⟨hd1, some hd.length, a.size⟩, t1,
      by simp only [Tree.operatorAssign, hroot, h1], h2, h3, ?_, rfl⟩
    show t1.height < hd1.length + 1
    omega

end CopyState

section ClaimsCopy
variable {T : Type}

/-- C13: for every tree `a` (a state whose graph unfolds to the binary tree `k`),
the copy constructor succeeds and yields a tree with the shape and values `k`
and the same `size()`; and cloning any node `i` of `a` into any store yields
a node whose graph has the shape and values of the subtree below `i`. -/
theorem copy_same_shape (a : Impl T) (k : Skel T) (hk : Tree.skel a = some k) :
    (∃ b, Tree.copy a = some b ∧ Tree.skel b = some k ∧ Tree.size b = Tree.size a) ∧
    ∀ (hd : List (Node T)) (i : Nat) (ki : Skel T),
      Impl.skel a.heap (a.heap.length + 1) (some i) = some ki →
      ∃ hd1 j, Node.clone a.heap (a.heap.length + 1) hd i = some (hd1, j) ∧
        Impl.skel hd1 (hd1.length + 1) (some j) = some ki := by
  constructor
  · obtain ⟨t, hr, rfl, hf⟩ := rep_of_skel hk
    obtain ⟨b, t1, h1, h2, h3, h4, h5⟩ := copy_rep hr hf []
    exact ⟨b, h1, by rw [← h3]; exact skel_rep h2 h4, h5⟩
  · intro hd i ki hki
    obtain ⟨t, hr, rfl, hf⟩ := rep_of_skel hki
    obtain ⟨hd1, t1, h1, h2, h3, h4, _, _⟩ := clone_rep hr hf hd
    refine ⟨hd1, hd.length, h1, ?_⟩
    rw [← h3]
    exact skel_rep h2 (by omega)

/-- C13 at the tree built from 5, 3, 8. -/
theorem copy_same_shape_witness :
    (∃ b, Tree.copy (⟨[⟨5, some 1, some 2, none⟩, ⟨3, none, none, some 0⟩,
        ⟨8, none, none, some 0⟩], some 0, 3⟩ : Impl Nat) = some b ∧
      Tree.skel b = some (.node (.node .nil 3 .nil) 5 (.node .nil 8 .nil)) ∧
      Tree.size b = 3) :=
  (copy_same_shape (⟨[⟨5, some 1, some 2, none⟩, ⟨3, none, none, some 0⟩,
        ⟨8, none, none, some 0⟩], some 0, 3⟩ : Impl Nat)
    (.node (.node .nil 3 .nil) 5 (.node .nil 8 .nil)) (by decide)).1

end ClaimsCopy

/-! ### The claims on equality, copies and repeated removal -/

section ClaimsLater
variable {T : Type} [LinearOrder T]

/-- C11 (code evaluated at the failing input): for the trees built from 5, 3, 8
and from 5, 3, 4 (equal `size()`, different shape) `a == b` yields no result:
`equals` is called with a non-null `lhs->right` and a null `rhs->right` and
dereferences the null pointer, at every recursion depth.  The two witnesses
of the claim do evaluate: 5, 3, 8 against 5, 8, 3 is true, 5, 3, 8 against
3, 5, 8 is false. -/
theorem operatorEq_null_right_no_result :
    Tree.ofList [5, 3, 8] = some (⟨[⟨5, some 1, some 2, none⟩, ⟨3, none, none, some 0⟩,
      ⟨8, none, none, some 0⟩], some 0, 3⟩ : Impl Nat) ∧
    Tree.ofList [5, 3, 4] = some (⟨[⟨5, some 1, none, none⟩, ⟨3, none, some 2, some 0⟩,
      ⟨4, none, none, some 1⟩], some 0, 3⟩ : Impl Nat) ∧
    Tree.operatorEq (⟨[⟨5, some 1, some 2, none⟩, ⟨3, none, none, some 0⟩,
        ⟨8, none, none, some 0⟩], some 0, 3⟩ : Impl Nat)
      ⟨[⟨5, some 1, none, none⟩, ⟨3, none, some 2, some 0⟩,
        ⟨4, none, none, some 1⟩], some 0, 3⟩ = none ∧
    (∀ fuel : Nat, Impl.equals
      ([⟨5, some 1, some 2, none⟩, ⟨3, none, none, some 0⟩,
        ⟨8, none, none, some 0⟩] : List (Node Nat))
      [⟨5, some 1, none, none⟩, ⟨3, none, some 2, some 0⟩, ⟨4, none, none, some 1⟩]
      fuel (some 0) (some 0) = none) ∧
    (Tree.ofList [5, 3, 8]).bind (fun a => (Tree.ofList [5, 8, 3]).bind
      (fun b => Tree.operatorEq a b)) = some true ∧
    (Tree.ofList [5, 3, 8]).bind (fun a => (Tree.ofList [3, 5, 8]).bind
      (fun b => Tree.operatorEq a b)) = some false := by
  refine ⟨by decide, by decide, by decide, ?_, by decide, by decide⟩
  intro fuel
  rcases fuel with _ | _ | _ | f <;> rfl

/-- C12 (code evaluated at the failing input): for two empty trees `a == b`
yields no result: the sizes agree, so `equals` is called on two null roots
and reads `lhs->val` of an absent node, at every recursion depth. -/
theorem operatorEq_empty_no_result :
    Tree.operatorEq (Impl.new Nat) (Impl.new Nat) = none ∧
    ∀ (hl hr : List (Node Nat)) (fuel : Nat) (rhs : Option Nat),
      Impl.equals hl hr fuel none rhs = none := by
  refine ⟨by decide, ?_⟩
  intro hl hr fuel rhs
  cases fuel <;> rfl

/-- C14 (code evaluated at the failing input): assigning an empty tree to the
tree built from 1 leaves the old root in place: `a = b` only sets `size()` to
0, and afterwards `exists(1)` is true on `a` although it is false on `b`. -/
theorem operatorAssign_empty_keeps_nodes :
    Tree.ofList [1] = some (⟨[⟨1, none, none, none⟩], some 0, 1⟩ : Impl Nat) ∧
    Tree.operatorAssign (⟨[⟨1, none, none, none⟩], some 0, 1⟩ : Impl Nat) (Impl.new Nat)
      = some ⟨[⟨1, none, none, none⟩], some 0, 0⟩ ∧
    Tree.exists (⟨[⟨1, none, none, none⟩], some 0, 0⟩ : Impl Nat) 1 = some true ∧
    Tree.exists (Impl.new Nat) 1 = some false := by
  decide

/-- C15 (code evaluated at the failing input): after inserting 5, 3, 8, 1, 4 and
`remove(3)` the reachable nodes are 0, 1, 3, 2 and the two distinct nodes 1
and 3 both hold the value 1; the in-order traversal `[1, 1, 5, 8]` repeats 1. -/
theorem remove_duplicates_value :
    ((Tree.ofList [5, 3, 8, 1, 4]).bind (fun s => Tree.remove s 3)).map
      (fun s => (Tree.nodes s).map (fun i => (i, (s.heap[i]?).map Node.val)))
      = some [(0, some 5), (1, some 1), (3, some 1), (2, some 8)] ∧
    ((Tree.ofList [5, 3, 8, 1, 4]).bind (fun s => Tree.remove s 3)).bind Tree.inorder
      = some [1, 1, 5, 8] ∧
    ([1, 1, 5, 8] : List Nat).Nodup = False := by
  refine ⟨by decide, by decide, ?_⟩
  simp

/-- C16: on the tree built by inserting 5, 3, 8, 1, 4, `findMax` of the root's
left subtree is the node holding 4; `remove(5)` puts 4 into the root, the
in-order traversal becomes `[1, 3, 4, 8]`, `size()` is 4 and `exists(5)` is
false. -/
theorem remove_root_two_children_scenario :
    Tree.ofList [5, 3, 8, 1, 4] = some (⟨[⟨5, some 1, some 2, none⟩,
      ⟨3, some 3, some 4, some 0⟩, ⟨8, none, none, some 0⟩, ⟨1, none, none, some 1⟩,
      ⟨4, none, none, some 1⟩], some 0, 5⟩ : Impl Nat) ∧
    Impl.findMax ([⟨5, some 1, some 2, none⟩,
      ⟨3, some 3, some 4, some 0⟩, ⟨8, none, none, some 0⟩, ⟨1, none, none, some 1⟩,
      ⟨4, none, none, some 1⟩] : List (Node Nat)) 6 (some 1) = some (some 4) ∧
    Impl.inorder ([⟨5, some 1, some 2, none⟩,
      ⟨3, some 3, some 4, some 0⟩, ⟨8, none, none, some 0⟩, ⟨1, none, none, some 1⟩,
      ⟨4, none, none, some 1⟩] : List (Node Nat)) 6 (some 1) = some [1, 3, 4] ∧
    Tree.remove (⟨[⟨5, some 1, some 2, none⟩,
      ⟨3, some 3, some 4, some 0⟩, ⟨8, none, none, some 0⟩, ⟨1, none, none, some 1⟩,
      ⟨4, none, none, some 1⟩], some 0, 5⟩ : Impl Nat) 5 = some ⟨[⟨4, some 1, some 2, none⟩,
      ⟨3, some 3, none, some 0⟩, ⟨8, none, none, some 0⟩, ⟨1, none, none, some 1⟩,
      ⟨4, none, none, some 1⟩], some 0, 4⟩ ∧
    ((Tree.ofList [5, 3, 8, 1, 4]).bind (fun s => Tree.remove s 5)).bind Tree.inorder
      = some [1, 3, 4, 8] ∧
    ((Tree.ofList [5, 3, 8, 1, 4]).bind (fun s => Tree.remove s 5)).map Tree.size
      = some 4 ∧
    ((Tree.ofList [5, 3, 8, 1, 4]).bind (fun s => Tree.remove s 5)).bind
      (fun s => Tree.exists s 5) = some false := by
  decide

/-- C17 (code evaluated at the failing input): after inserting 5, 3, 1 and
`remove(3)` the node holding 3 is still the left child of the root and still
has the node holding 1 as its left child, but the parent reference of that
child designates the root: the parent back-reference invariant, which held
before the call, no longer holds. -/
theorem remove_breaks_parent_reference :
    (Tree.ofList [5, 3, 1]).map Tree.parentsOk = some true ∧
    (Tree.ofList [5, 3, 1]).bind (fun s => Tree.remove s 3)
      = some (⟨[⟨5, some 1, none, none⟩, ⟨3, some 2, none, some 0⟩,
        ⟨1, none, none, some 0⟩], some 0, 2⟩ : Impl Nat) ∧
    ((Tree.ofList [5, 3, 1]).bind (fun s => Tree.remove s 3)).map Tree.parentsOk
      = some false := by
  decide

/-- C18: let the in-order traversal of the subtree below a node `i` be strictly
increasing (BST ordering).  Then `findMax` returns a node `m` of that subtree
that has no right child and whose value is in the subtree and at least every
value of it; and for every node whose left child is `i`, `replace` retargets
to this `m`, which still has no right child afterwards (at most one child, a
left one). -/
theorem findMax_no_right_child (s : Impl T) (i : Nat) (xs : List T)
    (hin : Impl.inorder s.heap (s.heap.length + 1) (some i) = some xs)
    (hsorted : xs.Sorted (· < ·)) :
    ∃ m n, Impl.findMax s.heap (s.heap.length + 1) (some i) = some (some m) ∧
      m ∈ reach s.heap (s.heap.length + 1) (some i) ∧
      s.heap[m]? = some n ∧ n.right = none ∧ n.val ∈ xs ∧ (∀ x ∈ xs, x ≤ n.val) ∧
      ∀ (node : Nat) (nd : Node T), s.heap[node]? = some nd → nd.left = some i →
        ∃ s1 n1, Impl.replace s node = some (s1, m) ∧ s1.heap[m]? = some n1 ∧
          n1.right = none ∧ n1.left = n.left := by
  obtain ⟨t, hr, rfl, hf⟩ := rep_of_inorder_height hin
  obtain ⟨m, n, h1, h2, h3, h4, h5, h6⟩ := findMax_rep hr hsorted hf
  refine ⟨m, n, h1, by rw [reach_rep hr hf]; exact h2, h3, h4, h5, h6, ?_⟩
  intro node nd hnd hleft
  have hlt : node < s.heap.length := (List.getElem?_eq_some.mp hnd).1
  have hrep : Impl.replace s node
      = some ({ s with heap := s.heap.set node { nd with val := n.val } }, m) := by
    simp only [Impl.replace, hnd, hleft, h1, h3]
  by_cases hmn : node = m
  · have hnn : nd = n := by
      rw [hmn, h3] at hnd
      exact (Option.some.inj hnd).symm
    refine ⟨_, { nd with val := n.val }, hrep, ?_, by rw [hnn]; exact h4, by rw [hnn]⟩
    show (s.heap.set node _)[m]? = _
    rw [← hmn]
    exact List.getElem?_set_self hlt
  · refine ⟨_, n, hrep, ?_, h4, rfl⟩
    show (s.heap.set node _)[m]? = some n
    rw [List.getElem?_set_ne hmn]
    exact h3

/-- C18 at the tree built from 5, 3, 8, 1, 4 and the left subtree of its root. -/
theorem findMax_no_right_child_witness :
    ∃ m n, Impl.findMax ([⟨5, some 1, some 2, none⟩,
        ⟨3, some 3, some 4, some 0⟩, ⟨8, none, none, some 0⟩, ⟨1, none, none, some 1⟩,
        ⟨4, none, none, some 1⟩] : List (Node Nat)) 6 (some 1) = some (some m) ∧
      ([⟨5, some 1, some 2, none⟩,
        ⟨3, some 3, some 4, some 0⟩, ⟨8, none, none, some 0⟩, ⟨1, none, none, some 1⟩,
        ⟨4, none, none, some 1⟩] : List (Node Nat))[m]? = some n ∧
      n.right = none ∧ n.val ∈ [1, 3, 4] ∧ ∀ x ∈ [1, 3, 4], x ≤ n.val := by
  obtain ⟨m, n, h1, _, h3, h4, h5, h6, _⟩ := findMax_no_right_child
    (⟨[⟨5, some 1, some 2, none⟩,
        ⟨3, some 3, some 4, some 0⟩, ⟨8, none, none, some 0⟩, ⟨1, none, none, some 1⟩,
        ⟨4, none, none, some 1⟩], some 0, 5⟩ : Impl Nat) 1 [1, 3, 4] (by decide) (by decide)
  exact ⟨m, n, h1, h3, h4, h5, h6⟩

/-- C20 (code evaluated at the failing input): after `insert 1; remove 1` the
counter is 0 and `empty()` is true although `exists(1)` is still true; a
second `remove(1)` finds the node again and decrements the counter from 0,
which wraps to `2 ^ 64 - 1`. -/
theorem remove_twice_wraps_size :
    (Tree.ofList [1]).bind (fun s => Tree.remove s 1)
      = some (⟨[⟨1, none, none, none⟩], some 0, 0⟩ : Impl Nat) ∧
    Tree.empty (⟨[⟨1, none, none, none⟩], some 0, 0⟩ : Impl Nat) = true ∧
    Tree.exists (⟨[⟨1, none, none, none⟩], some 0, 0⟩ : Impl Nat) 1 = some true ∧
    Tree.remove (⟨[⟨1, none, none, none⟩], some 0, 0⟩ : Impl Nat) 1
      = some ⟨[⟨1, none, none, none⟩], some 0, SIZE_MOD - 1⟩ ∧
    SIZE_MOD - 1 = 18446744073709551615 := by
  decide

end ClaimsLater

end bst
